import Mathlib

/-!
Verification of the MIDAS agent-simulation engine.

This file is a shallow embedding of the core of the MIDAS code base
(`MIDAS/engine.py`, `MIDAS/coefficients.py`, `MIDAS/enums.py`) together with
theorems settling the specified properties of the per-step update engine.

Modelling conventions:
* Python floats are modelled exactly: as rationals (`ℚ`) in the host-side
  serialization and coefficient translation, and as reals (`ℝ`) in the device
  kernel geometry, where transcendental functions occur.
* `numpy` arrays are modelled as lists or as index functions.
* Random draws (`np.random.rand`, `xoroshiro128p_normal_float32`) are passed
  to the embedded functions as explicit arguments.
* A Python code path that reads an unassigned local variable is modelled by an
  explicit error value (`Option`/error field), mirroring `UnboundLocalError`.
* Contents of `cuda.local.array` scratch buffers are modelled as
  zero-initialized.
-/

namespace MIDAS

-- ==========================================================================
-- Enumerations (`MIDAS/enums.py`)
-- ==========================================================================

/-- Arena kinds, `Arena` in `enums.py` (CIRCULAR = 0, RECTANGULAR = 1). -/
inductive Arena
  | circular
  | rectangular
deriving DecidableEq

/-- Agent types, `Agent` in `enums.py` (FIXED = 0, RIPO = 1). -/
inductive Agent
  | fixed
  | ripo
deriving DecidableEq

/-- Output action kinds, `Action` in `enums.py`. The three transverse
reorientation aliases share value 1 in the source; the longitudinal and
frontal plane variants carry values 2 and 3 and are distinct constructors. -/
inductive Action
  | speed_modulation
  | reorientation
  | reorientation_longitudinal
  | reorientation_frontal
deriving DecidableEq

-- ==========================================================================
-- Group parameter serialization (`engine.py`, class `Groups`)
-- ==========================================================================

/-- One configured input of a RIPO group as consumed by `Groups.param_RIPO`:
a perception enumerant, a normalization enumerant and the raw coefficient
list. Enumerant values are kept as the rational numbers they are serialized
to. -/
structure RIPOInput where
  perception : ℚ
  normalization : ℚ
  coefficients : List ℚ
deriving DecidableEq

/-- The keyword arguments of `Groups.param_RIPO` that shape the serialized
row. `none` models an absent keyword (for `rmax`, passing `None` explicitly
behaves like absence, as in the source). The `outputs` dict is modelled as
its insertion-ordered (key, value) list. The source reads
`kwargs['inputs']` unconditionally, so `inputs` is a plain list here. -/
structure RIPOKwargs where
  rS : Option (List ℚ)
  nSa : Option ℚ
  nSb : Option ℚ
  rmax : Option ℚ
  inputs : List RIPOInput
  outputs : List (ℚ × ℚ)
deriving DecidableEq

/-- The serialized parameter row built by `Groups.param_RIPO`
(`engine.py` lines 199-270): `nR`, then `nSa` (if dim > 1), `nSb`
(if dim > 2), the ascending-sorted zone radii (if `nR > 1`), `rmax` (0 when
absent), the number of input sets, the number of outputs, then per input its
perception, normalization and coefficients, then per output its action and
activation enumerants. `np.sort` is modelled by an ascending insertion
sort. -/
def param_RIPO_row (dim : ℕ) (kw : RIPOKwargs) : List ℚ :=
  let nR : ℕ := match kw.rS with
    | some rS => rS.length + 1
    | none => 1
  let rSsorted : List ℚ := match kw.rS with
    | some rS => rS.insertionSort (· ≤ ·)
    | none => []
  [(nR : ℚ)]
    ++ (if dim > 1 then [kw.nSa.getD 4] else [])
    ++ (if dim > 2 then [kw.nSb.getD 4] else [])
    ++ (if nR > 1 then rSsorted else [])
    ++ [kw.rmax.getD 0]
    ++ [(kw.inputs.length : ℚ), (kw.outputs.length : ℚ)]
    ++ kw.inputs.flatMap (fun I => I.perception :: I.normalization :: I.coefficients)
    ++ kw.outputs.flatMap (fun kv => [kv.1, kv.2])

/-- Placement of a freshly serialized row into the group parameter table
`Groups.param` (`engine.py` lines 272-280), modelled verbatim, including the
source's placement of the `np.concatenate` call inside the `elif` branch
only: when the table is nonempty and the new row is not strictly longer than
the current column count, the (possibly padded) new row is computed and then
discarded, and the table is returned unchanged. -/
def param_table_update (table : List (List ℚ)) (row : List ℚ) : List (List ℚ) :=
  if table ≠ [] then
    let cols := table.headI.length
    if cols > row.length then
      table
    else if cols < row.length then
      (table.map (fun r => r ++ List.replicate (row.length - cols) (0 : ℚ))) ++ [row]
    else
      table
  else
    [row]

/-- Effect of one `Groups.param_RIPO` call on the serialized table. -/
def param_RIPO (dim : ℕ) (table : List (List ℚ)) (kw : RIPOKwargs) : List (List ℚ) :=
  param_table_update table (param_RIPO_row dim kw)

/-- Serialized table after registering a sequence of RIPO groups in order. -/
def register_groups (dim : ℕ) (ks : List RIPOKwargs) : List (List ℚ) :=
  ks.foldl (param_RIPO dim) []

-- ==========================================================================
-- Coefficient-to-weight translation (`MIDAS/coefficients.py`)
-- ==========================================================================

/-- Python float modulo restricted to the arguments it receives here:
`x % y = x - y * floor (x / y)` (exact on rationals, as in the source where
the operands are small integers and quarters). -/
def qmod (x y : ℚ) : ℚ := x - y * ⌊x / y⌋

/-- The weight entries appended for one output and one in-output coefficient
index `j` by `Coefficients.to_weights` (`coefficients.py` lines 53-64): the
matched actions append one signed copy of the coefficient, unmatched actions
append nothing. -/
def weight_entry (a : Action) (nSa : ℕ) (j : ℕ) (c : ℚ) : List ℚ :=
  match a with
  | Action.speed_modulation =>
      [if qmod ((j : ℚ) + (nSa : ℚ) / 4) (nSa : ℚ) < (nSa : ℚ) / 2 then c else -c]
  | Action.reorientation =>
      [if ((j % nSa : ℕ) : ℚ) < (nSa : ℚ) / 2 then c else -c]
  | _ => []

/-- The signed value carried by a nonempty `weight_entry`. -/
def entry_val (a : Action) (nSa : ℕ) (j : ℕ) (c : ℚ) : ℚ :=
  (weight_entry a nSa j c).headI

/-- All weight entries produced for output index `i`: the inner
`for j in range(self.nCpO)` loop of `to_weights`, reading raw coefficient
`C[self.nCpO * i + j]`. -/
def weight_entries (a : Action) (nSa nCpO : ℕ) (C : List ℚ) (i : ℕ) : List ℚ :=
  ((List.range nCpO).map (fun j => weight_entry a nSa j (C.getD (nCpO * i + j) 0))).flatten

/-- The outer `for i, Out in enumerate(self.engine.outputs)` loop of
`to_weights`, with `i` the running output index. -/
def to_weights_from (nSa nCpO : ℕ) (C : List ℚ) : ℕ → List Action → List ℚ
  | _, [] => []
  | i, a :: rest => weight_entries a nSa nCpO C i ++ to_weights_from nSa nCpO C (i + 1) rest

/-- `Coefficients.to_weights` (`coefficients.py` lines 43-66) on a grid-based
input: `nCpO` is the number of coefficients per output (`nG * grid.nZ`) and
`nSa` the angular slice count of the grid. -/
def to_weights (outputs : List Action) (nSa nCpO : ℕ) (C : List ℚ) : List ℚ :=
  to_weights_from nSa nCpO C 0 outputs

-- ==========================================================================
-- Step scheduler and double buffering (`engine.py`, `Engine.step`)
-- ==========================================================================

/-- The two device position/velocity buffer pairs `(p0, v0)` and `(p1, v1)`
held by the `CUDA` context object. -/
structure CudaBuffers (α : Type) where
  p0 : α
  v0 : α
  p1 : α
  v1 : α
deriving DecidableEq

/-- The host-side arrays `agents.pos` / `agents.vel` exposed to collaborators
after a step. -/
structure AgentArrays (α : Type) where
  pos : α
  vel : α
deriving DecidableEq

/-- Buffer pair number `k` of the double buffer: pair 0 is `(p0, v0)`,
pair 1 is `(p1, v1)`. -/
def buffer_pair {α : Type} (c : CudaBuffers α) (k : ℕ) : α × α :=
  if k = 0 then (c.p0, c.v0) else (c.p1, c.v1)

/-- Buffer pair number `k` replaced by `pv`, the other pair kept. -/
def set_pair {α : Type} (c : CudaBuffers α) (k : ℕ) (pv : α × α) : CudaBuffers α :=
  if k = 0 then ⟨pv.1, pv.2, c.p1, c.v1⟩ else ⟨c.p0, c.v0, pv.1, pv.2⟩

/-- One scheduler step, `Engine.step` (`engine.py` lines 474-501): on odd `i`
the kernel reads `(p0, v0)` and writes `(p1, v1)`, on even `i` the roles are
swapped; after `cuda.synchronize()` the freshly written pair is copied back
to the host arrays. The kernel launch is the function argument `kernel`
(the stored `self.cuda.step`); the returned pair is the updated device
buffer set and the exposed host arrays. -/
def engine_step {α : Type} (kernel : α → α → α × α) (i : ℕ) (c : CudaBuffers α) :
    CudaBuffers α × AgentArrays α :=
  if i % 2 ≠ 0 then
    let pv := kernel c.p0 c.v0
    (⟨c.p0, c.v0, pv.1, pv.2⟩, ⟨pv.1, pv.2⟩)
  else
    let pv := kernel c.p1 c.v1
    (⟨pv.1, pv.2, c.p1, c.v1⟩, ⟨pv.1, pv.2⟩)

/-- A concrete kernel for exercising the scheduler on natural-number
buffers: it returns the buffer pair it was given to read. -/
def idKernel : ℕ → ℕ → ℕ × ℕ := fun p v => (p, v)

/-- Concrete device buffers with distinguishable markers in every slot. -/
def markedBuffers : CudaBuffers ℕ := ⟨10, 11, 20, 21⟩

-- ==========================================================================
-- Geometry and boundary device functions (`engine.py` bottom section)
-- ==========================================================================

/-- The value of `cmath.rect r θ`: the complex number with modulus `r` and
phase `θ`. -/
noncomputable def crect (r θ : ℝ) : ℂ :=
  (r : ℂ) * Complex.exp ((θ : ℂ) * Complex.I)

/-- Minimum-image adjustment performed per periodic axis by `relative_2d`
(`engine.py` lines 1133-1142): keep the raw difference when its magnitude is
within the half-extent, otherwise shift by twice the half-extent, the sign
chosen by the comparison `x1 > x0` of the source. -/
noncomputable def wrap_periodic (halfExt d : ℝ) : ℝ :=
  if |d| ≤ halfExt then d else if 0 < d then d - 2 * halfExt else d + 2 * halfExt

open Classical in
/-- Relative position and orientation between two agents, device function
`relative_2d` (`engine.py` lines 1110-1153). Returns the offset as a complex
value (rotated into the observer frame), the relative orientation, and the
visibility status; when a cutoff `rmax` is given and exceeded it returns
`(0, 0, false)`. -/
noncomputable def relative_2d (x0 y0 a0 x1 y1 a1 : ℝ) (rmax : Option ℝ)
    (arena : Arena) (arena_X arena_Y : ℝ) (periodic_X periodic_Y : Bool) :
    ℂ × ℝ × Bool :=
  let z : ℂ :=
    match arena with
    | Arena.circular => ⟨x1 - x0, y1 - y0⟩
    | Arena.rectangular =>
        ⟨if periodic_X then wrap_periodic arena_X (x1 - x0) else x1 - x0,
         if periodic_Y then wrap_periodic arena_Y (y1 - y0) else y1 - y0⟩
  match rmax with
  | some r =>
      if Complex.abs z > r then (0, 0, false)
      else (z * crect 1 (-a0), a1 - a0, true)
  | none => (z * crect 1 (-a0), a1 - a0, true)

open Classical in
/-- Boundary resolution, device function `assign_2d` (`engine.py` lines
1155-1235). Arguments are the previous position `z0`, the candidate position
`z1`, the polar velocity `(v, a)` and the arena description; the result is
`(px, py, v, a)` after wrapping or reflection. -/
noncomputable def assign_2d (z0 z1 : ℂ) (v a : ℝ) (arena : Arena)
    (arena_X arena_Y : ℝ) (periodic_X periodic_Y : Bool) : ℝ × ℝ × ℝ × ℝ :=
  if v = 0 then (z1.re, z1.im, v, a)
  else
    match arena with
    | Arena.circular =>
        if Complex.abs z1 > arena_X then
          let phi := a + Real.arcsin ((z0.im * Real.cos a - z0.re * Real.sin a) / arena_X)
          let zc := crect arena_X phi
          let z2 := zc + ((v - Complex.abs (zc - z0)) : ℂ) * crect 1 (Real.pi + 2 * phi - a)
          (z2.re, z2.im, v, a + (Real.pi - 2 * (a - phi)))
        else
          (z1.re, z1.im, v, a)
    | Arena.rectangular =>
        let zv := crect v a
        let pxvx : ℝ × ℝ :=
          if periodic_X then
            (if z1.re > arena_X then z1.re - 2 * arena_X
             else if z1.re < -arena_X then z1.re + 2 * arena_X
             else z1.re, zv.re)
          else
            if z1.re > arena_X then (2 * arena_X - z1.re, -zv.re)
            else if z1.re < -arena_X then (-2 * arena_X - z1.re, -zv.re)
            else (z1.re, zv.re)
        let pyvy : ℝ × ℝ :=
          if periodic_Y then
            (if z1.im > arena_Y then z1.im - 2 * arena_Y
             else if z1.im < -arena_Y then z1.im + 2 * arena_Y
             else z1.im, zv.im)
          else
            if z1.im > arena_Y then (2 * arena_Y - z1.im, -zv.im)
            else if z1.im < -arena_Y then (-2 * arena_Y - z1.im, -zv.im)
            else (z1.im, zv.im)
        (pxvx.1, pyvy.1, Complex.abs ⟨pxvx.2, pyvy.2⟩, Complex.arg ⟨pxvx.2, pyvy.2⟩)

-- ==========================================================================
-- Kernel perception scan (`engine.py`, `CUDA_step`, agent-dependent part)
-- ==========================================================================

/-- Python float modulo on reals, used for the phase wrap. -/
noncomputable def rmod (x y : ℝ) : ℝ := x - y * ⌊x / y⌋

open Classical in
/-- Radial zone location by linear ascending scan (`engine.py` lines
983-986): `ri = 0; for k in range(nR): ri = k; if |z| < rS[k]: break`, that
is, the first index whose boundary radius strictly exceeds the distance, and
`nR - 1` when none does. -/
noncomputable def radial_index (nR : ℕ) (rS : ℕ → ℝ) (d : ℝ) : ℕ :=
  match (List.range nR).find? (fun k => decide (d < rS k)) with
  | some k => k
  | none => nR - 1

/-- Angular zone location (`engine.py` line 988):
`int((phase(z) % 2π) / 2 / π * nSa)`; the operand is nonnegative so Python
`int` truncation is the floor. -/
noncomputable def angular_index (nSa : ℕ) (z : ℂ) : ℕ :=
  (⌊rmod (Complex.arg z) (2 * Real.pi) / 2 / Real.pi * (nSa : ℝ)⌋).toNat

/-- Zone index in the flattened grid for dimension 2 (`engine.py` line 993):
`ig = ri * nSa + ai`. -/
noncomputable def zone_index (nR nSa : ℕ) (rS : ℕ → ℝ) (z : ℂ) : ℕ :=
  radial_index nR rS (Complex.abs z) * nSa + angular_index nSa z

/-- One histogram increment: the counter of zone `ig` bumped by one. -/
def bump (hist : ℕ → ℕ) (ig : ℕ) : ℕ → ℕ :=
  fun b => if b = ig then hist b + 1 else hist b

open Classical in
/-- The body of the perception loop for one perceived agent `j` (`engine.py`
lines 969-999): skip self-perception, compute `relative_2d`, skip agents out
of reach, locate the zone of the returned offset and increment its presence
counter. -/
noncomputable def presence_step (i : ℕ) (pos vel : ℕ → ℝ × ℝ)
    (nR nSa : ℕ) (rS : ℕ → ℝ) (rmax : Option ℝ) (arena : Arena)
    (arena_X arena_Y : ℝ) (periodic_X periodic_Y : Bool)
    (hist : ℕ → ℕ) (j : ℕ) : ℕ → ℕ :=
  if j = i then hist
  else
    let r := relative_2d (pos i).1 (pos i).2 (vel i).2 (pos j).1 (pos j).2 (vel j).2
        rmax arena arena_X arena_Y periodic_X periodic_Y
    if r.2.2 then bump hist (zone_index nR nSa rS r.1) else hist

/-- The presence-input perception scan of agent `i` (`engine.py` lines
967-999, dimension 2, a presence input configured): iterate `presence_step`
over all agents. The `cuda.local` histogram is modelled as zero-initialized. -/
noncomputable def presence_scan (N i : ℕ) (pos vel : ℕ → ℝ × ℝ)
    (nR nSa : ℕ) (rS : ℕ → ℝ) (rmax : Option ℝ) (arena : Arena)
    (arena_X arena_Y : ℝ) (periodic_X periodic_Y : Bool) : ℕ → ℕ :=
  (List.range N).foldl
    (presence_step i pos vel nR nSa rS rmax arena arena_X arena_Y periodic_X periodic_Y)
    (fun _ => 0)

/-- Number of agents carrying group id `g` in the `agents.group` array. -/
def group_size (group : ℕ → ℕ) (N g : ℕ) : ℕ :=
  ((List.range N).filter (fun j => group j = g)).length

-- ==========================================================================
-- The CUDA kernel, one thread (`engine.py`, `CUDA_step`)
-- ==========================================================================

/-- Geometry parameters as deserialized by the kernel (dimension 2):
arena kind, half-extents, periodicity flags. -/
structure Geom where
  arena : Arena
  arena_X : ℝ
  arena_Y : ℝ
  periodic_X : Bool
  periodic_Y : Bool

/-- Per-agent parameter row (`aparam`, dimension 2): speed limits, turn
limit, speed noise and angular noise. -/
structure AgentParam where
  vmin : ℝ
  vmax : ℝ
  damax : ℝ
  vnoise : ℝ
  anoise : ℝ

/-- A RIPO group row as decoded by the kernel (`engine.py` lines 844-959):
zone grid shape, zone radii, optional cutoff, whether a presence input is
configured and whether its normalization enumerant is NONE, the flattened
weight vector, the group and output counts, and whether the reorientation
output decodes to the ANGLE activation. Orientation inputs contribute
nothing to the weighted sum in the source (unimplemented) and are omitted. -/
structure GroupConfig where
  nR : ℕ
  nSa : ℕ
  rS : ℕ → ℝ
  rmax : Option ℝ
  hasPresence : Bool
  presenceNormNone : Bool
  weights : ℕ → ℝ
  nG : ℕ
  nOut : ℕ
  outDaAngle : Bool

/-- The reorientation activation applied by the kernel (`engine.py` line
1056): `damax * (4/π * atan (exp (s / 2)) - 1)`. -/
noncomputable def reorientation_activation (damax s : ℝ) : ℝ :=
  damax * (4 / Real.pi * Real.arctan (Real.exp (s / 2)) - 1)

/-- The output slots of one kernel thread: this agent's rows of the `p1` and
`v1` output buffers (`none` when never written), and an uncaught Python error
if one is raised. -/
structure KernelResult where
  p1 : Option (ℝ × ℝ)
  v1 : Option (ℝ × ℝ)
  err : Option String

open Classical in
/-- One thread of the CUDA kernel `CUDA_step` (`engine.py` lines 738-1101)
for agent `i`, dimension 2. The fixed-agent branch (lines 751-753) copies the
position row into `p1` and does not return; the update section (lines
1074-1101) then runs unconditionally and begins with `v += dv`, but `dv` and
`da` are assigned only inside the RIPO branch, so for a non-RIPO agent the
read of `dv` raises `UnboundLocalError` (modelled by the `err` field, with
`dvda = none`). The two noise draws are the explicit arguments `vdraw`,
`adraw`. -/
noncomputable def CUDA_step (geom : Geom) (atype : Agent) (cfg : GroupConfig)
    (ap : AgentParam) (vdraw adraw : ℝ) (N : ℕ) (p0 v0 : ℕ → ℝ × ℝ)
    (i : ℕ) : KernelResult :=
  let p1fixed : Option (ℝ × ℝ) := if atype = Agent.fixed then some (p0 i) else none
  let v := (v0 i).1
  let a := (v0 i).2
  let dvda : Option (ℝ × ℝ) :=
    if atype = Agent.ripo then
      let hist := if cfg.hasPresence then
          presence_scan N i p0 v0 cfg.nR cfg.nSa cfg.rS cfg.rmax geom.arena
            geom.arena_X geom.arena_Y geom.periodic_X geom.periodic_Y
        else fun _ => 0
      let ncADI := cfg.nOut * cfg.nG * cfg.nR * cfg.nSa
      let WS : ℝ := if cfg.hasPresence ∧ cfg.presenceNormNone then
          ∑ ci ∈ Finset.range ncADI, (hist ci : ℝ) * cfg.weights ci
        else 0
      let da := if cfg.outDaAngle then reorientation_activation ap.damax WS else 0
      some (0, da)
    else none
  match dvda with
  | none => ⟨p1fixed, none, some "UnboundLocalError"⟩
  | some dd =>
      let v1 := v + dd.1
      let a1 := a + dd.2
      let v2 := if ap.vnoise ≠ 0 then
          let vn := v1 + ap.vnoise * vdraw
          if vn < ap.vmin then ap.vmin else if vn > ap.vmax then ap.vmax else vn
        else v1
      let a2 := if ap.anoise ≠ 0 then a1 + ap.anoise * adraw else a1
      let z0 : ℂ := ⟨(p0 i).1, (p0 i).2⟩
      let z1 := z0 + crect v2 a2
      let r := assign_2d z0 z1 v2 a2 geom.arena geom.arena_X geom.arena_Y
          geom.periodic_X geom.periodic_Y
      ⟨some (r.1, r.2.1), some (r.2.2.1, r.2.2.2), none⟩

-- ==========================================================================
-- Initial condition sampling (`engine.py`, `Geometry.set_initial_positions`)
-- ==========================================================================

open Classical in
/-- Initial position sampling, `Geometry.set_initial_positions` (`engine.py`
lines 60-98). The uniform draws of `np.random.rand` are the explicit argument
`rand` (`rand k d` is draw `d` for row `k`; the circular 2D branch uses
`rand k 0` for `u1` and `rand k 1` for `u2`). The source assigns `pos` only
inside the `if ptype in [None, 'random', 'shuffle']` branch and ends with
`return pos`, so any other policy argument reaches the return with `pos`
unbound (`UnboundLocalError`), modelled as `none`. -/
noncomputable def set_initial_positions (arena : Arena) (dimension : ℕ)
    (arena_shape : List ℝ) (rand : ℕ → ℕ → ℝ) (ptype : Option String) (n : ℕ) :
    Option (List (List ℝ)) :=
  if ptype = none ∨ ptype = some "random" ∨ ptype = some "shuffle" then
    some (match arena with
      | Arena.rectangular =>
          (List.range n).map (fun k =>
            (List.range dimension).map (fun d => (rand k d - 1 / 2) * arena_shape.getD d 0))
      | Arena.circular =>
          if dimension = 2 then
            (List.range n).map (fun k =>
              [Real.sqrt (rand k 1) * Real.cos (2 * Real.pi * rand k 0) * (arena_shape.getD 0 0 / 2),
               Real.sqrt (rand k 1) * Real.sin (2 * Real.pi * rand k 0) * (arena_shape.getD 0 0 / 2)])
          else
            (List.range n).map (fun k =>
              (List.range dimension).map (fun d => (rand k d - 1 / 2) * arena_shape.getD d 0)))
  else
    none

-- ==========================================================================
-- Theorems
-- ==========================================================================

/-- C1: refuted on the code (code bug). Registering RIPO group A and then a
group B whose serialized row is not strictly longer than A's leaves the
parameter table with a single row: the source pads the new row (or does
nothing, for equal lengths) but the `np.concatenate` appending the row sits
inside the `elif` branch only, so B's row is silently dropped and the table
does not get one row per registered group. Here both rows have length 7
(dimension 2, no radii, one output, rmax differing), the second registration
is a no-op, and the table ends with one row instead of two. -/
theorem param_RIPO_equal_length_row_dropped :
    register_groups 2 [⟨none, none, none, none, [], [(1, 2)]⟩,
                       ⟨none, none, none, some 3, [], [(1, 2)]⟩]
      = [[1, 4, 0, 0, 1, 1, 2]]
    ∧ register_groups 2 [⟨none, none, none, none, [], [(1, 2)]⟩,
                         ⟨none, none, none, some 3, [], [(1, 2)]⟩]
      = register_groups 2 [⟨none, none, none, none, [], [(1, 2)]⟩]
    ∧ (register_groups 2 [⟨none, none, none, none, [], [(1, 2)]⟩,
                          ⟨none, none, none, some 3, [], [(1, 2)]⟩]).length ≠ 2 := by
  decide

/-- C5 counterexample: the claim states that a zone-radius list that is not
strictly ascending is reported as a failure at setup time and never accepted
into the serialized row. The serializer has no failure path at all: with
`rS = [3, 1]` (not strictly ascending) it silently sorts the list and
serializes the row `[nR=3, nSa=4, 1, 3, rmax=0, 0 inputs, 1 output, 1, 2]`. -/
theorem param_RIPO_row_accepts_unsorted_radii :
    ¬ List.Sorted (· < ·) ([3, 1] : List ℚ)
    ∧ param_RIPO_row 2 ⟨some [3, 1], none, none, none, [], [(1, 2)]⟩
        = [3, 4, 1, 3, 0, 0, 1, 1, 2] := by
  decide

/-- C5 (amended): a group registration whose zone-boundary radius list `rS`
is not ascending is never reported as a failure: `param_RIPO` sorts the
list ascending (`np.sort`) and serializes exactly the row it would produce
for the pre-sorted list; duplicates are retained as-is. -/
theorem param_RIPO_row_sorts_radii (dim : ℕ) (nSa nSb rmax : Option ℚ)
    (inputs : List RIPOInput) (outputs : List (ℚ × ℚ)) (rS : List ℚ) :
    param_RIPO_row dim ⟨some rS, nSa, nSb, rmax, inputs, outputs⟩
      = param_RIPO_row dim
          ⟨some (rS.insertionSort (· ≤ ·)), nSa, nSb, rmax, inputs, outputs⟩ := by
  have h1 : (rS.insertionSort (· ≤ ·)).insertionSort (· ≤ ·) = rS.insertionSort (· ≤ ·) :=
    List.Sorted.insertionSort_eq (List.sorted_insertionSort _ rS)
  have h2 : (rS.insertionSort (· ≤ ·)).length = rS.length := List.length_insertionSort _ rS
  simp only [param_RIPO_row, h1, h2]

/-- C4 counterexample: the claim states that step `t` reads the buffer pair
numbered `t mod 2` and writes the pair numbered `(t+1) mod 2`. At `t = 1`
the code does the opposite: with the read-back kernel and buffers
`p0=10, v0=11, p1=20, v1=21`, step 1 reads pair 0 (verified by the value 10
landing in the output) and writes pair 1, leaving pair 0 untouched — while
the claim predicts that pair 0 is overwritten with the kernel output of
pair 1 (which would be 20). -/
theorem engine_step_read_pair_refuted :
    buffer_pair (engine_step idKernel 1 ⟨10, 11, 20, 21⟩).1 0 = (10, 11)
    ∧ buffer_pair (engine_step idKernel 1 ⟨10, 11, 20, 21⟩).1 1 = (10, 11)
    ∧ ((10, 11) : ℕ × ℕ) ≠ (20, 21) := by
  decide

/-- C4 (amended): for every step index `t ≥ 1`, `Engine.step` reads the
buffer pair numbered `(t+1) mod 2` and writes the pair numbered `t mod 2`
(the claim has the two parities swapped); consecutive steps still alternate
the two pairs, so the pair written at step `t` is the pair read at step
`t+1`, and after synchronization the freshly written pair is exposed as the
agents' current state. -/
theorem engine_step_buffer_parity {α : Type} (kernel : α → α → α × α)
    (c : CudaBuffers α) (t : ℕ) (h : 1 ≤ t) :
    engine_step kernel t c
      = (set_pair c (t % 2)
           (kernel (buffer_pair c ((t + 1) % 2)).1 (buffer_pair c ((t + 1) % 2)).2),
         ⟨(kernel (buffer_pair c ((t + 1) % 2)).1 (buffer_pair c ((t + 1) % 2)).2).1,
          (kernel (buffer_pair c ((t + 1) % 2)).1 (buffer_pair c ((t + 1) % 2)).2).2⟩)
    ∧ t % 2 = (t + 1 + 1) % 2
    ∧ (engine_step kernel t c).2.pos = (buffer_pair (engine_step kernel t c).1 (t % 2)).1
    ∧ (engine_step kernel t c).2.vel = (buffer_pair (engine_step kernel t c).1 (t % 2)).2 := by
  rcases Nat.mod_two_eq_zero_or_one t with h2 | h2
  · have h3 : (t + 1) % 2 = 1 := by omega
    refine ⟨?_, by omega, ?_, ?_⟩ <;>
      simp [engine_step, set_pair, buffer_pair, h2, h3]
  · have h3 : (t + 1) % 2 = 0 := by omega
    refine ⟨?_, by omega, ?_, ?_⟩ <;>
      simp [engine_step, set_pair, buffer_pair, h2, h3]

/-- C4 witness: the amended statement applied at step 1 on concrete
natural-number buffers with the read-back kernel. -/
theorem engine_step_buffer_parity_witness :
    1 ≤ 1
    ∧ (engine_step idKernel 1 markedBuffers
        = (set_pair markedBuffers (1 % 2)
             (idKernel (buffer_pair markedBuffers ((1 + 1) % 2)).1
               (buffer_pair markedBuffers ((1 + 1) % 2)).2),
           ⟨(idKernel (buffer_pair markedBuffers ((1 + 1) % 2)).1
               (buffer_pair markedBuffers ((1 + 1) % 2)).2).1,
            (idKernel (buffer_pair markedBuffers ((1 + 1) % 2)).1
               (buffer_pair markedBuffers ((1 + 1) % 2)).2).2⟩)
       ∧ 1 % 2 = (1 + 1 + 1) % 2
       ∧ (engine_step idKernel 1 markedBuffers).2.pos
           = (buffer_pair (engine_step idKernel 1 markedBuffers).1 (1 % 2)).1
       ∧ (engine_step idKernel 1 markedBuffers).2.vel
           = (buffer_pair (engine_step idKernel 1 markedBuffers).1 (1 % 2)).2) :=
  ⟨by decide, engine_step_buffer_parity idKernel markedBuffers 1 (by decide)⟩

/-- Flattening a list of singleton blocks is a plain map. -/
theorem flatten_map_singleton {α β : Type} (f : α → β) (l : List α) :
    (l.map (fun x => [f x])).flatten = l.map f := by
  induction l with
  | nil => rfl
  | cons x xs ih => simp [ih]

/-- For the two actions matched by `to_weights`, the appended block is the
singleton holding `entry_val`. -/
theorem weight_entry_good {a : Action}
    (ha : a = Action.speed_modulation ∨ a = Action.reorientation)
    (nSa j : ℕ) (c : ℚ) : weight_entry a nSa j c = [entry_val a nSa j c] := by
  rcases ha with h | h <;> subst h <;> rfl

/-- On a matched action, the per-output block is a map over the coefficient
indices. -/
theorem weight_entries_good_eq {a : Action}
    (ha : a = Action.speed_modulation ∨ a = Action.reorientation)
    (nSa nCpO : ℕ) (C : List ℚ) (i : ℕ) :
    weight_entries a nSa nCpO C i
      = (List.range nCpO).map (fun j => entry_val a nSa j (C.getD (nCpO * i + j) 0)) := by
  have h : (fun j => weight_entry a nSa j (C.getD (nCpO * i + j) 0))
      = fun j => [entry_val a nSa j (C.getD (nCpO * i + j) 0)] := by
    funext j
    exact weight_entry_good ha nSa j _
  rw [weight_entries, h, flatten_map_singleton]

/-- On a matched action, the per-output block has one entry per coefficient. -/
theorem weight_entries_good_length {a : Action}
    (ha : a = Action.speed_modulation ∨ a = Action.reorientation)
    (nSa nCpO : ℕ) (C : List ℚ) (i : ℕ) :
    (weight_entries a nSa nCpO C i).length = nCpO := by
  rw [weight_entries_good_eq ha]
  simp

/-- Length of the translated weight list when every output is matched. -/
theorem to_weights_from_length (nSa nCpO : ℕ) (C : List ℚ) :
    ∀ outs : List Action,
      (∀ a ∈ outs, a = Action.speed_modulation ∨ a = Action.reorientation) →
      ∀ i₀ : ℕ, (to_weights_from nSa nCpO C i₀ outs).length = outs.length * nCpO := by
  intro outs
  induction outs with
  | nil => intro _ i₀; simp [to_weights_from]
  | cons a rest ih =>
      intro hg i₀
      have h1 : (weight_entries a nSa nCpO C i₀).length = nCpO :=
        weight_entries_good_length (hg a (by simp)) nSa nCpO C i₀
      have h2 := ih (fun x hx => hg x (by simp [hx])) (i₀ + 1)
      simp only [to_weights_from, List.length_append, h1, h2, List.length_cons]
      ring

/-- Entry of the translated weight list at linear index `nCpO * i + j` when
every output is matched. -/
theorem to_weights_from_getD (nSa nCpO : ℕ) (C : List ℚ) :
    ∀ outs : List Action,
      (∀ a ∈ outs, a = Action.speed_modulation ∨ a = Action.reorientation) →
      ∀ i₀ i j : ℕ, i < outs.length → j < nCpO →
      (to_weights_from nSa nCpO C i₀ outs).getD (nCpO * i + j) 0
        = entry_val (outs.getD i Action.speed_modulation) nSa j
            (C.getD (nCpO * (i₀ + i) + j) 0) := by
  intro outs
  induction outs with
  | nil =>
      intro _ _ i _ hi _
      exact absurd hi (by simp)
  | cons a rest ih =>
      intro hg i₀ i j hi hj
      have hlen : (weight_entries a nSa nCpO C i₀).length = nCpO :=
        weight_entries_good_length (hg a (by simp)) nSa nCpO C i₀
      match i with
      | 0 =>
          simp only [Nat.mul_zero, Nat.zero_add, Nat.add_zero]
          rw [to_weights_from, List.getD_append _ _ _ _ (by rw [hlen]; exact hj)]
          rw [weight_entries_good_eq (hg a (by simp)),
            List.getD_eq_getElem _ _ (by simpa using hj)]
          simp
      | i' + 1 =>
          rw [to_weights_from, Nat.mul_succ,
            List.getD_append_right _ _ _ _ (by rw [hlen]; omega)]
          have hsub : nCpO * i' + nCpO + j - (weight_entries a nSa nCpO C i₀).length
              = nCpO * i' + j := by rw [hlen]; omega
          rw [hsub, ih (fun x hx => hg x (by simp [hx])) (i₀ + 1) i' j (by simpa using hi) hj]
          have harg : i₀ + 1 + i' = i₀ + (i' + 1) := by omega
          rw [harg]
          simp

/-- Rational Python modulo is invariant under shifting by an integer
multiple of the modulus. -/
theorem qmod_add_mul_int (x y : ℚ) (m : ℤ) (hy : y ≠ 0) :
    qmod (x + y * m) y = qmod x y := by
  unfold qmod
  have h : (x + y * m) / y = x / y + m := by
    field_simp
    ring
  rw [h, Int.floor_add_int]
  push_cast
  ring

/-- Reducing the integer part modulo `nSa` does not change the Python
modulo by `nSa` of `j + q`. -/
theorem qmod_natCast_mod (j nSa : ℕ) (h : nSa ≠ 0) (q : ℚ) :
    qmod ((j : ℚ) + q) (nSa : ℚ) = qmod (((j % nSa : ℕ) : ℚ) + q) (nSa : ℚ) := by
  have hy : (nSa : ℚ) ≠ 0 := by exact_mod_cast h
  have h2 : j % nSa + nSa * (j / nSa) = j := Nat.mod_add_div j nSa
  have h3 : (j : ℚ) = ((j % nSa : ℕ) : ℚ) + (nSa : ℚ) * ((j / nSa : ℕ) : ℚ) := by
    exact_mod_cast h2.symm
  have h4 : (j : ℚ) + q = (((j % nSa : ℕ) : ℚ) + q) + (nSa : ℚ) * ((j / nSa : ℕ) : ℤ) := by
    have h5 : ((((j / nSa : ℕ) : ℤ)) : ℚ) = ((j / nSa : ℕ) : ℚ) := by norm_cast
    rw [h5, h3]
    ring
  rw [h4, qmod_add_mul_int _ _ _ hy]

/-- C9: on a grid-based input, `to_weights` preserves the length of the raw
coefficient vector, each weight has the magnitude of its raw coefficient at
linear index `outputIndex * nCpO + zoneIndex`, and the sign rule holds: for
a reorientation output the coefficient is negated exactly when
`(zoneAngularIndex mod nSa) ≥ nSa / 2`, and for a speed-modulation output
exactly when `((zoneAngularIndex + nSa/4) mod nSa) ≥ nSa / 2`, where the
zone angular index of linear zone index `j` is `j mod nSa`. -/
theorem to_weights_sign_rule (outputs : List Action) (nSa nCpO : ℕ)
    (C : List ℚ) (i j : ℕ)
    (hgood : ∀ a ∈ outputs, a = Action.speed_modulation ∨ a = Action.reorientation)
    (hnSa : 1 ≤ nSa) (hC : C.length = outputs.length * nCpO)
    (hi : i < outputs.length) (hj : j < nCpO) :
    (to_weights outputs nSa nCpO C).length = C.length
    ∧ |(to_weights outputs nSa nCpO C).getD (nCpO * i + j) 0|
        = |C.getD (nCpO * i + j) 0|
    ∧ (outputs.getD i Action.speed_modulation = Action.reorientation →
        ((((j % nSa) % nSa : ℕ) : ℚ) < (nSa : ℚ) / 2 →
            (to_weights outputs nSa nCpO C).getD (nCpO * i + j) 0
              = C.getD (nCpO * i + j) 0)
        ∧ ((nSa : ℚ) / 2 ≤ (((j % nSa) % nSa : ℕ) : ℚ) →
            (to_weights outputs nSa nCpO C).getD (nCpO * i + j) 0
              = -(C.getD (nCpO * i + j) 0)))
    ∧ (outputs.getD i Action.speed_modulation = Action.speed_modulation →
        (qmod (((j % nSa : ℕ) : ℚ) + (nSa : ℚ) / 4) (nSa : ℚ) < (nSa : ℚ) / 2 →
            (to_weights outputs nSa nCpO C).getD (nCpO * i + j) 0
              = C.getD (nCpO * i + j) 0)
        ∧ ((nSa : ℚ) / 2 ≤ qmod (((j % nSa : ℕ) : ℚ) + (nSa : ℚ) / 4) (nSa : ℚ) →
            (to_weights outputs nSa nCpO C).getD (nCpO * i + j) 0
              = -(C.getD (nCpO * i + j) 0))) := by
  have hget := to_weights_from_getD nSa nCpO C outputs hgood 0 i j hi hj
  simp only [Nat.zero_add] at hget
  have hmm : j % nSa % nSa = j % nSa := Nat.mod_mod_of_dvd j dvd_rfl
  have hq : qmod ((j : ℚ) + (nSa : ℚ) / 4) (nSa : ℚ)
      = qmod (((j % nSa : ℕ) : ℚ) + (nSa : ℚ) / 4) (nSa : ℚ) :=
    qmod_natCast_mod j nSa (by omega) _
  refine ⟨?_, ?_, ?_, ?_⟩
  · rw [to_weights, to_weights_from_length nSa nCpO C outputs hgood 0, hC]
  · rw [to_weights, hget]
    have hmem : outputs.getD i Action.speed_modulation ∈ outputs := by
      rw [List.getD_eq_getElem _ _ hi]
      exact List.getElem_mem hi
    rcases hgood _ hmem with ha | ha <;> rw [ha] <;>
      simp only [entry_val, weight_entry, List.headI] <;> split_ifs <;>
      simp [abs_neg]
  · intro hre
    rw [hre] at hget
    rw [hmm]
    constructor
    · intro hlt
      rw [to_weights, hget]
      simp only [entry_val, weight_entry, List.headI]
      rw [if_pos hlt]
    · intro hge
      rw [to_weights, hget]
      simp only [entry_val, weight_entry, List.headI]
      rw [if_neg (by exact not_lt.mpr hge)]
  · intro hsp
    rw [hsp] at hget
    constructor
    · intro hlt
      rw [to_weights, hget]
      simp only [entry_val, weight_entry, List.headI]
      rw [if_pos (by rw [hq]; exact hlt)]
    · intro hge
      rw [to_weights, hget]
      simp only [entry_val, weight_entry, List.headI]
      rw [if_neg (by rw [hq]; exact not_lt.mpr hge)]

/-- C9 witness: the statement applied to a single reorientation output with
one coefficient per output, four angular slices, raw coefficient 5. -/
theorem to_weights_sign_rule_witness :
    (∀ a ∈ [Action.reorientation],
        a = Action.speed_modulation ∨ a = Action.reorientation)
    ∧ 1 ≤ 4
    ∧ ([5] : List ℚ).length = [Action.reorientation].length * 1
    ∧ 0 < [Action.reorientation].length
    ∧ 0 < 1
    ∧ ((to_weights [Action.reorientation] 4 1 [5]).length = ([5] : List ℚ).length
       ∧ |(to_weights [Action.reorientation] 4 1 [5]).getD (1 * 0 + 0) 0|
           = |([5] : List ℚ).getD (1 * 0 + 0) 0|
       ∧ ([Action.reorientation].getD 0 Action.speed_modulation = Action.reorientation →
           ((((0 % 4) % 4 : ℕ) : ℚ) < (4 : ℚ) / 2 →
               (to_weights [Action.reorientation] 4 1 [5]).getD (1 * 0 + 0) 0
                 = ([5] : List ℚ).getD (1 * 0 + 0) 0)
           ∧ ((4 : ℚ) / 2 ≤ (((0 % 4) % 4 : ℕ) : ℚ) →
               (to_weights [Action.reorientation] 4 1 [5]).getD (1 * 0 + 0) 0
                 = -(([5] : List ℚ).getD (1 * 0 + 0) 0)))
       ∧ ([Action.reorientation].getD 0 Action.speed_modulation = Action.speed_modulation →
           (qmod (((0 % 4 : ℕ) : ℚ) + (4 : ℚ) / 4) (4 : ℚ) < (4 : ℚ) / 2 →
               (to_weights [Action.reorientation] 4 1 [5]).getD (1 * 0 + 0) 0
                 = ([5] : List ℚ).getD (1 * 0 + 0) 0)
           ∧ ((4 : ℚ) / 2 ≤ qmod (((0 % 4 : ℕ) : ℚ) + (4 : ℚ) / 4) (4 : ℚ) →
               (to_weights [Action.reorientation] 4 1 [5]).getD (1 * 0 + 0) 0
                 = -(([5] : List ℚ).getD (1 * 0 + 0) 0)))) :=
  ⟨by decide, by decide, by decide, by decide, by decide,
   to_weights_sign_rule [Action.reorientation] 4 1 [5] 0 0
     (by decide) (by decide) (by decide) (by decide) (by decide)⟩

/-- C10: for every position-policy argument other than `None`, `'random'` or
`'shuffle'`, `Geometry.set_initial_positions` assigns no position array: the
function falls through to `return pos` with `pos` unbound (modelled as
`none`), and no sampling policy is used as a fallback. -/
theorem set_initial_positions_unknown_policy_none (arena : Arena)
    (dimension : ℕ) (arena_shape : List ℝ) (rand : ℕ → ℕ → ℝ)
    (ptype : Option String) (n : ℕ) (h0 : ptype ≠ none)
    (h1 : ptype ≠ some "random") (h2 : ptype ≠ some "shuffle") :
    set_initial_positions arena dimension arena_shape rand ptype n = none := by
  simp only [set_initial_positions]
  rw [if_neg]
  push_neg
  exact ⟨h0, h1, h2⟩

/-- C10 witness: a misspelled policy string on a concrete rectangular
configuration yields no position array. -/
theorem set_initial_positions_unknown_policy_none_witness :
    (some "RANDOM" : Option String) ≠ none
    ∧ (some "RANDOM" : Option String) ≠ some "random"
    ∧ (some "RANDOM" : Option String) ≠ some "shuffle"
    ∧ set_initial_positions Arena.rectangular 2 [1, 1] (fun _ _ => 0)
        (some "RANDOM") 3 = none :=
  ⟨by decide, by decide, by decide,
   set_initial_positions_unknown_policy_none Arena.rectangular 2 [1, 1]
     (fun _ _ => 0) (some "RANDOM") 3 (by decide) (by decide) (by decide)⟩

/-- The wrapped offset is within the half-extent whenever the raw difference
is within twice the half-extent. -/
theorem abs_wrap_periodic_le (halfExt d : ℝ) (hd : |d| ≤ 2 * halfExt) :
    |wrap_periodic halfExt d| ≤ halfExt := by
  have h2h : 0 ≤ halfExt := by
    have := abs_nonneg d
    linarith
  rcases abs_le.mp hd with ⟨hd1, hd2⟩
  unfold wrap_periodic
  split_ifs with h1 h2
  · exact h1
  · rw [abs_le]
    rw [abs_of_pos h2] at h1
    constructor <;> linarith [not_le.mp h1]
  · rw [abs_le]
    push_neg at h1 h2
    rw [abs_of_nonpos h2] at h1
    constructor <;> linarith

/-- Modulus of the rect-form complex number. -/
theorem abs_crect (r θ : ℝ) : Complex.abs (crect r θ) = |r| := by
  unfold crect
  rw [map_mul, Complex.abs_ofReal, Complex.abs_exp_ofReal_mul_I, mul_one]

/-- Real part of the rect-form complex number. -/
theorem crect_re (r θ : ℝ) : (crect r θ).re = r * Real.cos θ := by
  unfold crect
  rw [Complex.re_ofReal_mul, Complex.exp_ofReal_mul_I_re]

/-- Imaginary part of the rect-form complex number. -/
theorem crect_im (r θ : ℝ) : (crect r θ).im = r * Real.sin θ := by
  unfold crect
  rw [Complex.im_ofReal_mul, Complex.exp_ofReal_mul_I_im]

/-- Negating components does not change the complex modulus. -/
theorem abs_mk_pm (w : ℂ) (x y : ℝ) (hx : x = w.re ∨ x = -w.re)
    (hy : y = w.im ∨ y = -w.im) : Complex.abs ⟨x, y⟩ = Complex.abs w := by
  have hn : Complex.normSq ⟨x, y⟩ = Complex.normSq w := by
    rw [Complex.normSq_mk, Complex.normSq_apply]
    rcases hx with h | h <;> rcases hy with h' | h' <;> rw [h, h'] <;> ring
  rw [Complex.abs_apply, Complex.abs_apply, hn]

/-- C6: for positions inside a rectangular arena and a periodic axis, the
offset computed by `relative_2d` on that axis is minimum-image wrapped: its
magnitude never exceeds the half-extent, the wrap shifts the raw difference
by twice the half-extent toward zero exactly when the raw difference
exceeds the half-extent in magnitude, and the offset `relative_2d` returns
is the wrapped offset rotated by the observer heading. -/
theorem relative_2d_minimum_image (x0 y0 a0 x1 y1 a1 arena_X arena_Y : ℝ)
    (hx0 : |x0| ≤ arena_X) (hx1 : |x1| ≤ arena_X)
    (hy0 : |y0| ≤ arena_Y) (hy1 : |y1| ≤ arena_Y) :
    |wrap_periodic arena_X (x1 - x0)| ≤ arena_X
    ∧ |wrap_periodic arena_Y (y1 - y0)| ≤ arena_Y
    ∧ (arena_X < |x1 - x0| →
        (0 < x1 - x0 → wrap_periodic arena_X (x1 - x0) = x1 - x0 - 2 * arena_X)
        ∧ (x1 - x0 < 0 → wrap_periodic arena_X (x1 - x0) = x1 - x0 + 2 * arena_X))
    ∧ (relative_2d x0 y0 a0 x1 y1 a1 none Arena.rectangular arena_X arena_Y
          true true).1
        = (⟨wrap_periodic arena_X (x1 - x0), wrap_periodic arena_Y (y1 - y0)⟩ : ℂ)
            * crect 1 (-a0) := by
  have tX : |x1 - x0| ≤ 2 * arena_X := by
    have h := abs_add x1 (-x0)
    rw [abs_neg] at h
    have h2 : |x1 - x0| ≤ |x1| + |x0| := by simpa [sub_eq_add_neg] using h
    linarith
  have tY : |y1 - y0| ≤ 2 * arena_Y := by
    have h := abs_add y1 (-y0)
    rw [abs_neg] at h
    have h2 : |y1 - y0| ≤ |y1| + |y0| := by simpa [sub_eq_add_neg] using h
    linarith
  refine ⟨abs_wrap_periodic_le _ _ tX, abs_wrap_periodic_le _ _ tY, ?_, ?_⟩
  · intro hgt
    constructor
    · intro hpos
      unfold wrap_periodic
      rw [if_neg (not_le.mpr hgt), if_pos hpos]
    · intro hneg
      unfold wrap_periodic
      rw [if_neg (not_le.mpr hgt), if_neg (by linarith)]
  · rfl

/-- C6 witness: the statement applied at a concrete configuration where the
raw difference 1.4 on a unit-half-extent axis wraps to -0.6. -/
theorem relative_2d_minimum_image_witness :
    |(1 / 2 : ℝ)| ≤ 1 ∧ |(-9 / 10 : ℝ)| ≤ 1 ∧ |(0 : ℝ)| ≤ 1 ∧ |(0 : ℝ)| ≤ 1
    ∧ (|wrap_periodic 1 ((1 / 2 : ℝ) - -9 / 10)| ≤ 1
       ∧ |wrap_periodic 1 ((0 : ℝ) - 0)| ≤ 1
       ∧ ((1 : ℝ) < |(1 / 2 : ℝ) - -9 / 10| →
           (0 < (1 / 2 : ℝ) - -9 / 10 →
             wrap_periodic 1 ((1 / 2 : ℝ) - -9 / 10) = (1 / 2 : ℝ) - -9 / 10 - 2 * 1)
           ∧ ((1 / 2 : ℝ) - -9 / 10 < 0 →
             wrap_periodic 1 ((1 / 2 : ℝ) - -9 / 10) = (1 / 2 : ℝ) - -9 / 10 + 2 * 1))
       ∧ (relative_2d (-9 / 10) 0 0 (1 / 2) 0 0 none Arena.rectangular 1 1
             true true).1
           = (⟨wrap_periodic 1 ((1 / 2 : ℝ) - -9 / 10),
               wrap_periodic 1 ((0 : ℝ) - 0)⟩ : ℂ) * crect 1 (-0)) :=
  ⟨by norm_num [abs_le], by norm_num [abs_le], by norm_num, by norm_num,
   relative_2d_minimum_image (-9 / 10) 0 0 (1 / 2) 0 0 1 1
     (by norm_num [abs_le]) (by norm_num [abs_le]) (by norm_num) (by norm_num)⟩

/-- C7: elastic reflection at boundary resolution. For nonzero speed, the
circular arena returns the incoming speed value unchanged (with or without a
bounce), the rectangular reflective arena returns a speed of the incoming
magnitude, and an agent crossing the right wall of a rectangular reflective
arena (no vertical crossing) has the Cartesian velocity component normal to
the wall exactly negated and the parallel component unchanged, as recovered
from the returned polar velocity. -/
theorem assign_2d_reflection_preserves_speed (z0 z1 : ℂ)
    (v a arena_X arena_Y : ℝ) (hv : v ≠ 0) :
    (assign_2d z0 z1 v a Arena.circular arena_X arena_Y false false).2.2.1 = v
    ∧ (assign_2d z0 z1 v a Arena.rectangular arena_X arena_Y false false).2.2.1
        = |v|
    ∧ (arena_X < z1.re → ¬ arena_Y < z1.im → ¬ z1.im < -arena_Y →
        crect ((assign_2d z0 z1 v a Arena.rectangular arena_X arena_Y
                  false false).2.2.1)
              ((assign_2d z0 z1 v a Arena.rectangular arena_X arena_Y
                  false false).2.2.2)
          = (⟨-(crect v a).re, (crect v a).im⟩ : ℂ)) := by
  refine ⟨?_, ?_, ?_⟩
  · simp only [assign_2d]
    rw [if_neg hv]
    split_ifs <;> rfl
  · simp only [assign_2d]
    rw [if_neg hv]
    simp only []
    split_ifs <;>
      exact (abs_mk_pm (crect v a) _ _
        (by first | exact Or.inl rfl | exact Or.inr rfl)
        (by first | exact Or.inl rfl | exact Or.inr rfl)).trans (abs_crect v a)
  · intro hX hY1 hY2
    simp only [assign_2d]
    rw [if_neg hv]
    simp only [Bool.false_eq_true, if_false, gt_iff_lt]
    rw [if_pos hX, if_neg hY1, if_neg hY2]
    unfold crect
    exact Complex.abs_mul_exp_arg_mul_I _

/-- C7 witness: the statement applied to an agent at the origin moving right
at unit speed whose candidate position 2 lies beyond the right wall at 1. -/
theorem assign_2d_reflection_preserves_speed_witness :
    (1 : ℝ) ≠ 0
    ∧ ((assign_2d 0 ⟨2, 0⟩ 1 0 Arena.circular 1 5 false false).2.2.1 = 1
       ∧ (assign_2d 0 ⟨2, 0⟩ 1 0 Arena.rectangular 1 5 false false).2.2.1
           = |(1 : ℝ)|
       ∧ ((1 : ℝ) < (⟨2, 0⟩ : ℂ).re → ¬ (5 : ℝ) < (⟨2, 0⟩ : ℂ).im
            → ¬ (⟨2, 0⟩ : ℂ).im < -(5 : ℝ) →
           crect ((assign_2d 0 ⟨2, 0⟩ 1 0 Arena.rectangular 1 5
                     false false).2.2.1)
                 ((assign_2d 0 ⟨2, 0⟩ 1 0 Arena.rectangular 1 5
                     false false).2.2.2)
             = (⟨-(crect 1 0).re, (crect 1 0).im⟩ : ℂ))) :=
  ⟨by norm_num, assign_2d_reflection_preserves_speed 0 ⟨2, 0⟩ 1 0 1 5 (by norm_num)⟩

/-- C8: for every turn limit `damax > 0`, the reorientation activation
`damax * (4/π * atan (exp (s/2)) - 1)` lies strictly inside
`(-damax, damax)` for every finite weighted sum `s`, is strictly increasing
in `s`, and equals 0 at `s = 0`. -/
theorem reorientation_activation_bounded_odd_monotone (damax : ℝ)
    (h : 0 < damax) :
    (∀ s : ℝ, -damax < reorientation_activation damax s
        ∧ reorientation_activation damax s < damax)
    ∧ StrictMono (reorientation_activation damax)
    ∧ reorientation_activation damax 0 = 0 := by
  have hpi : (0 : ℝ) < Real.pi := Real.pi_pos
  refine ⟨?_, ?_, ?_⟩
  · intro s
    have he : 0 < Real.exp (s / 2) := Real.exp_pos _
    have h1 : 0 < Real.arctan (Real.exp (s / 2)) := by
      rw [← Real.arctan_zero]
      exact Real.arctan_strictMono he
    have h2 : Real.arctan (Real.exp (s / 2)) < Real.pi / 2 :=
      Real.arctan_lt_pi_div_two _
    have h3 : 4 / Real.pi * Real.arctan (Real.exp (s / 2)) < 2 := by
      rw [div_mul_eq_mul_div, div_lt_iff₀ hpi]
      linarith
    have h5 : 0 < 4 / Real.pi * Real.arctan (Real.exp (s / 2)) := by positivity
    unfold reorientation_activation
    constructor
    · nlinarith
    · nlinarith
  · intro s1 s2 hs
    have harc : Real.arctan (Real.exp (s1 / 2)) < Real.arctan (Real.exp (s2 / 2)) :=
      Real.arctan_strictMono (Real.exp_lt_exp.mpr (by linarith))
    unfold reorientation_activation
    apply mul_lt_mul_of_pos_left _ h
    apply sub_lt_sub_right
    exact mul_lt_mul_of_pos_left harc (by positivity)
  · unfold reorientation_activation
    rw [show (0 : ℝ) / 2 = 0 by norm_num, Real.exp_zero, Real.arctan_one]
    have h14 : 4 / Real.pi * (Real.pi / 4) = 1 := by field_simp
    rw [h14]
    ring

/-- C8 witness: the statement applied at the concrete turn limit 1. -/
theorem reorientation_activation_bounded_odd_monotone_witness :
    (0 : ℝ) < 1
    ∧ ((∀ s : ℝ, -(1 : ℝ) < reorientation_activation 1 s
          ∧ reorientation_activation 1 s < 1)
       ∧ StrictMono (reorientation_activation 1)
       ∧ reorientation_activation 1 0 = 0) :=
  ⟨by norm_num, by
    have h := reorientation_activation_bounded_odd_monotone 1 (by norm_num)
    simpa using h⟩

/-- The radial linear scan always lands strictly below `nR`. -/
theorem radial_index_lt (nR : ℕ) (rS : ℕ → ℝ) (d : ℝ) (h : 1 ≤ nR) :
    radial_index nR rS d < nR := by
  unfold radial_index
  cases hf : (List.range nR).find? (fun k => decide (d < rS k)) with
  | none =>
      show nR - 1 < nR
      omega
  | some k =>
      show k < nR
      have hmem : k ∈ List.range nR := List.mem_of_find?_eq_some hf
      simpa using List.mem_range.mp hmem

/-- The angular zone of any offset lands strictly below `nSa`. -/
theorem angular_index_lt (nSa : ℕ) (z : ℂ) (h : 1 ≤ nSa) :
    angular_index nSa z < nSa := by
  unfold angular_index rmod
  have hpi : (0 : ℝ) < Real.pi := Real.pi_pos
  set θ := Complex.arg z with hθ
  have hfr : θ - 2 * Real.pi * ⌊θ / (2 * Real.pi)⌋
      = 2 * Real.pi * Int.fract (θ / (2 * Real.pi)) := by
    rw [Int.fract]
    field_simp
  rw [hfr]
  have hval : 2 * Real.pi * Int.fract (θ / (2 * Real.pi)) / 2 / Real.pi * (nSa : ℝ)
      = Int.fract (θ / (2 * Real.pi)) * (nSa : ℝ) := by
    field_simp
  rw [hval]
  have h0 : 0 ≤ Int.fract (θ / (2 * Real.pi)) := Int.fract_nonneg _
  have h1 : Int.fract (θ / (2 * Real.pi)) < 1 := Int.fract_lt_one _
  have hpos : (0 : ℝ) < (nSa : ℝ) := by exact_mod_cast Nat.lt_of_lt_of_le Nat.zero_lt_one h
  have hlt : Int.fract (θ / (2 * Real.pi)) * (nSa : ℝ) < (nSa : ℝ) := by
    nlinarith
  have hfl : ⌊Int.fract (θ / (2 * Real.pi)) * (nSa : ℝ)⌋ < (nSa : ℤ) :=
    Int.floor_lt.mpr (by exact_mod_cast hlt)
  have hfl0 : 0 ≤ ⌊Int.fract (θ / (2 * Real.pi)) * (nSa : ℝ)⌋ :=
    Int.floor_nonneg.mpr (by positivity)
  omega

/-- The flattened zone index lands strictly below the zone count `nR * nSa`. -/
theorem zone_index_lt (nR nSa : ℕ) (rS : ℕ → ℝ) (z : ℂ)
    (h1 : 1 ≤ nR) (h2 : 1 ≤ nSa) : zone_index nR nSa rS z < nR * nSa := by
  unfold zone_index
  have ha := radial_index_lt nR rS (Complex.abs z) h1
  have hb := angular_index_lt nSa z h2
  have h3 : radial_index nR rS (Complex.abs z) * nSa + angular_index nSa z
      < (radial_index nR rS (Complex.abs z) + 1) * nSa := by
    rw [Nat.succ_mul]
    omega
  exact lt_of_lt_of_le h3 (Nat.mul_le_mul_right _ (by omega))

/-- With no perception cutoff every other agent is visible. -/
theorem relative_2d_none_visible (x0 y0 a0 x1 y1 a1 : ℝ) (arena : Arena)
    (arena_X arena_Y : ℝ) (periodic_X periodic_Y : Bool) :
    (relative_2d x0 y0 a0 x1 y1 a1 none arena arena_X arena_Y
      periodic_X periodic_Y).2.2 = true := by
  cases arena <;> rfl

/-- A bump inside the summation window raises the histogram total by one. -/
theorem sum_bump (hist : ℕ → ℕ) (ig nZ : ℕ) (h : ig < nZ) :
    ∑ b ∈ Finset.range nZ, bump hist ig b = (∑ b ∈ Finset.range nZ, hist b) + 1 := by
  have he : ∀ b, bump hist ig b = hist b + (if b = ig then 1 else 0) := by
    intro b
    unfold bump
    split_ifs <;> ring
  rw [Finset.sum_congr rfl (fun b _ => he b), Finset.sum_add_distrib,
    Finset.sum_ite_eq' (Finset.range nZ) ig (fun _ => 1),
    if_pos (Finset.mem_range.mpr h)]

/-- The loop body leaves the histogram unchanged on self-perception. -/
theorem presence_step_self (i : ℕ) (pos vel : ℕ → ℝ × ℝ) (nR nSa : ℕ)
    (rS : ℕ → ℝ) (rmax : Option ℝ) (arena : Arena) (arena_X arena_Y : ℝ)
    (periodic_X periodic_Y : Bool) (hist : ℕ → ℕ) :
    presence_step i pos vel nR nSa rS rmax arena arena_X arena_Y
      periodic_X periodic_Y hist i = hist := by
  unfold presence_step
  rw [if_pos rfl]

/-- With no cutoff, the loop body bumps exactly one zone for every other
agent. -/
theorem presence_step_other (i j : ℕ) (pos vel : ℕ → ℝ × ℝ) (nR nSa : ℕ)
    (rS : ℕ → ℝ) (arena : Arena) (arena_X arena_Y : ℝ)
    (periodic_X periodic_Y : Bool) (hist : ℕ → ℕ) (hj : j ≠ i) :
    presence_step i pos vel nR nSa rS none arena arena_X arena_Y
        periodic_X periodic_Y hist j
      = bump hist (zone_index nR nSa rS
          (relative_2d (pos i).1 (pos i).2 (vel i).2 (pos j).1 (pos j).2
            (vel j).2 none arena arena_X arena_Y periodic_X periodic_Y).1) := by
  unfold presence_step
  rw [if_neg hj, if_pos (relative_2d_none_visible _ _ _ _ _ _ _ _ _ _ _)]

/-- Range filtering away one in-range element drops the length by one. -/
theorem length_filter_ne_range (N i : ℕ) (hi : i < N) :
    ((List.range N).filter (fun j => j ≠ i)).length = N - 1 := by
  induction N with
  | zero => omega
  | succ n ih =>
      rw [List.range_succ, List.filter_append, List.length_append]
      by_cases h : i = n
      · subst h
        have h1 : (List.range i).filter (fun j => j ≠ i) = List.range i :=
          List.filter_eq_self.mpr (by
            intro j hj
            simpa using Nat.ne_of_lt (List.mem_range.mp hj))
        rw [h1]
        simp
      · have hi2 : i < n := by omega
        rw [ih hi2]
        have h2 : ([n].filter (fun j => j ≠ i)).length = 1 := by
          simp [Ne.symm h]
        rw [h2]
        omega

/-- With no perception cutoff, the presence histogram of agent `i` totals
`N - 1` over the `nR * nSa` zones: every other agent is counted exactly
once (whatever its group) and the agent itself is excluded. -/
theorem presence_scan_sum (N i : ℕ) (pos vel : ℕ → ℝ × ℝ) (nR nSa : ℕ)
    (rS : ℕ → ℝ) (arena : Arena) (arena_X arena_Y : ℝ)
    (periodic_X periodic_Y : Bool) (hi : i < N) (h1 : 1 ≤ nR) (h2 : 1 ≤ nSa) :
    ∑ b ∈ Finset.range (nR * nSa),
        presence_scan N i pos vel nR nSa rS none arena arena_X arena_Y
          periodic_X periodic_Y b = N - 1 := by
  have step : ∀ (l : List ℕ) (hist : ℕ → ℕ),
      ∑ b ∈ Finset.range (nR * nSa),
          (l.foldl (presence_step i pos vel nR nSa rS none arena arena_X arena_Y
            periodic_X periodic_Y) hist) b
        = (∑ b ∈ Finset.range (nR * nSa), hist b)
            + (l.filter (fun j => j ≠ i)).length := by
    intro l
    induction l with
    | nil => intro hist; simp
    | cons j tl ih =>
        intro hist
        rw [List.foldl_cons]
        by_cases hj : j = i
        · subst hj
          rw [ih, presence_step_self]
          simp
        · rw [ih, presence_step_other i j pos vel nR nSa rS arena arena_X arena_Y
            periodic_X periodic_Y hist hj]
          rw [sum_bump _ _ _ (zone_index_lt nR nSa rS _ h1 h2)]
          have hl : ((j :: tl).filter (fun x => x ≠ i)).length
              = (tl.filter (fun x => x ≠ i)).length + 1 := by
            rw [List.filter_cons]
            simp [hj]
          rw [hl]
          omega
  rw [presence_scan, step (List.range N) (fun _ => 0),
    length_filter_ne_range N i hi]
  simp

/-- C3 counterexample: the claim states the presence histogram of agent `i`
sums to `groupSize(i) - 1`. With three agents where agent 0 is alone in its
group (group ids `[0, 1, 1]`), the scan counts both other agents — the loop
iterates over the whole population and never consults the group array — so
the histogram sums to 2 while `groupSize(0) - 1 = 0`. -/
theorem presence_histogram_sum_group_size_refuted :
    (∑ b ∈ Finset.range (1 * 4),
        presence_scan 3 0 (fun _ => (0, 0)) (fun _ => (0, 0)) 1 4 (fun _ => 0)
          none Arena.rectangular 1 1 false false b) = 2
    ∧ group_size (fun j => if j = 0 then 0 else 1) 3 0 - 1 = 0
    ∧ (2 : ℕ) ≠ 0 := by
  refine ⟨?_, by decide, by decide⟩
  have h := presence_scan_sum 3 0 (fun _ => (0, 0)) (fun _ => (0, 0)) 1 4
    (fun _ => 0) Arena.rectangular 1 1 false false (by norm_num) (by norm_num)
    (by norm_num)
  simpa using h

/-- C3 (amended): for every mobile agent `i` whose group has a presence
input configured and no perception cutoff (`rmax` absent), the presence
histogram accumulated for `i` over the `nR * nSa` zones sums to `N - 1`
where `N` is the total agent count: every other agent of every group and
type is counted exactly once and the agent itself is excluded (the scan
ignores the perceived agent's group). -/
theorem presence_histogram_sum_total_minus_one (N i : ℕ)
    (pos vel : ℕ → ℝ × ℝ) (nR nSa : ℕ) (rS : ℕ → ℝ) (arena : Arena)
    (arena_X arena_Y : ℝ) (periodic_X periodic_Y : Bool)
    (hi : i < N) (h1 : 1 ≤ nR) (h2 : 1 ≤ nSa) :
    ∑ b ∈ Finset.range (nR * nSa),
        presence_scan N i pos vel nR nSa rS none arena arena_X arena_Y
          periodic_X periodic_Y b = N - 1 :=
  presence_scan_sum N i pos vel nR nSa rS arena arena_X arena_Y
    periodic_X periodic_Y hi h1 h2

/-- C3 witness: the amended statement applied to three coincident agents on
a single-radius four-slice grid. -/
theorem presence_histogram_sum_total_minus_one_witness :
    0 < 3 ∧ 1 ≤ 1 ∧ 1 ≤ 4
    ∧ ∑ b ∈ Finset.range (1 * 4),
        presence_scan 3 0 (fun _ => (1, 1)) (fun _ => (0, 0)) 1 4 (fun _ => 0)
          none Arena.rectangular 2 2 true true b = 3 - 1 :=
  ⟨by norm_num, by norm_num, by norm_num,
   presence_histogram_sum_total_minus_one 3 0 (fun _ => (1, 1))
     (fun _ => (0, 0)) 1 4 (fun _ => 0) Arena.rectangular 2 2 true true
     (by norm_num) (by norm_num) (by norm_num)⟩

/-- C2: refuted on the code (code bug). The fixed-agent branch of the kernel
copies the position row into the output buffer but does not exit; the update
section then runs unconditionally and its first statement reads `dv`, which
is assigned only in the RIPO branch, so a fixed agent's thread raises
`UnboundLocalError` instead of exiting cleanly: the kernel result is the
copied position, an unwritten velocity slot, and the uncaught error. -/
theorem CUDA_step_fixed_agent_unbound_update (geom : Geom) (cfg : GroupConfig)
    (ap : AgentParam) (vdraw adraw : ℝ) (N : ℕ) (p0 v0 : ℕ → ℝ × ℝ) (i : ℕ) :
    CUDA_step geom Agent.fixed cfg ap vdraw adraw N p0 v0 i
      = ⟨some (p0 i), none, some "UnboundLocalError"⟩ := by
  rfl

end MIDAS
